import Mathlib

/-!
Verification of the sandboxed patch engine of `ai-file-edit`
(`src/unnamed/part_004`: `validatePath`, `applyFileEdits`, the diff
utilities and `applyReversePatch`).

Strings are modelled as lists of characters (`Str`).  The JavaScript
string operations the engine relies on (`includes`, `replace`,
`split('\n')`, `join('\n')`, `trim`, `trimStart`, `/^\s*/` matching,
`startsWith`) are embedded below with ECMAScript semantics; in
particular `String.prototype.replace` performs `$`-substitution in the
replacement string (GetSubstitution), which is observable behaviour of
the engine.

The npm `diff` library (`createTwoFilesPatch`, `parsePatch`,
`reversePatch`, `formatPatch`, `applyPatch`) is an external dependency
whose source is not part of this repository; it is modelled from the
spec (§4.3, §4.4) at the structured-patch level, see `LineDiff` below.
-/

set_option maxRecDepth 10000

namespace AiFileEdit

/-- Contents are sequences of characters. -/
abbrev Str := List Char

/-- ECMAScript whitespace (the class matched by `\s`, used by `trim`,
`trimStart` and the `/^\s*/` indentation probe). -/
def isJsSpace (ch : Char) : Bool :=
  decide ((0x9 ≤ ch.toNat ∧ ch.toNat ≤ 0xD) ∨ ch.toNat = 0x20 ∨ ch.toNat = 0xA0 ∨
    ch.toNat = 0x1680 ∨ (0x2000 ≤ ch.toNat ∧ ch.toNat ≤ 0x200A) ∨ ch.toNat = 0x2028 ∨
    ch.toNat = 0x2029 ∨ ch.toNat = 0x202F ∨ ch.toNat = 0x205F ∨ ch.toNat = 0x3000 ∨
    ch.toNat = 0xFEFF)

/-- JavaScript `String.prototype.trimStart`. -/
def jsTrimStart (s : Str) : Str := s.dropWhile isJsSpace

/-- JavaScript `String.prototype.trim`. -/
def jsTrim (s : Str) : Str :=
  ((s.dropWhile isJsSpace).reverse.dropWhile isJsSpace).reverse

/-- Leading whitespace of a line: the text matched by `/^\s*/`. -/
def indentOf (s : Str) : Str := s.takeWhile isJsSpace

/-- Splits `c` around the first occurrence of `pat` (the split JavaScript
`indexOf`/`replace` perform): `some (b, a)` with `c = b ++ pat ++ a` and
`b` shortest, `none` when `pat` does not occur. -/
def splitFirst (pat : Str) : Str → Option (Str × Str)
  | [] => if pat <+: ([] : Str) then some ([], []) else none
  | ch :: rest =>
    if pat <+: (ch :: rest) then some ([], (ch :: rest).drop pat.length)
    else (splitFirst pat rest).map fun ba => (ch :: ba.1, ba.2)

/-- JavaScript `c.includes(pat)`. -/
def occursIn (c pat : Str) : Bool := (splitFirst pat c).isSome

/-- ECMAScript GetSubstitution: interprets `$$`, `$&`, `$` followed by a
backtick, and `$'` in a replacement string (there are no capture groups
for a string search, so `$n` is literal). -/
def getSubstitution (matched before after : Str) : Str → Str
  | [] => []
  | [ch] => [ch]
  | ch :: next :: rest =>
    if ch = '$' then
      if next = '$' then '$' :: getSubstitution matched before after rest
      else if next = '&' then matched ++ getSubstitution matched before after rest
      else if next.toNat = 0x60 then before ++ getSubstitution matched before after rest
      else if next.toNat = 0x27 then after ++ getSubstitution matched before after rest
      else '$' :: getSubstitution matched before after (next :: rest)
    else ch :: getSubstitution matched before after (next :: rest)

/-- JavaScript `c.replace(pat, rep)` with a string pattern: replaces the
first occurrence of `pat`, applying GetSubstitution to `rep`; returns
`c` unchanged when `pat` does not occur. -/
def jsReplace (c pat rep : Str) : Str :=
  match splitFirst pat c with
  | none => c
  | some (b, a) => b ++ getSubstitution pat b a rep ++ a

/-- JavaScript `s.split(sep)` for a single-character separator. -/
def splitOn (sep : Char) : Str → List Str
  | [] => [[]]
  | ch :: rest =>
    if ch = sep then [] :: splitOn sep rest
    else
      match splitOn sep rest with
      | [] => [[ch]]
      | l :: ls => (ch :: l) :: ls

/-- JavaScript `parts.join(sep)` for a single-character separator. -/
def joinWith (sep : Char) : List Str → Str
  | [] => []
  | [l] => l
  | l :: l' :: ls => l ++ sep :: joinWith sep (l' :: ls)

/-- Source: `normalizeLineEndings` — `text.replace(/\r\n/g, '\n')`,
a left-to-right non-overlapping global replacement. -/
def normalizeLineEndings : Str → Str
  | [] => []
  | [ch] => [ch]
  | ch :: next :: rest =>
    if ch = '\r' ∧ next = '\n' then '\n' :: normalizeLineEndings rest
    else ch :: normalizeLineEndings (next :: rest)

/-- Source: `getPlatformLineEnding` — CRLF on win32, LF elsewhere.  The
host platform is passed explicitly as `isWin32`. -/
def platformLineEnding (isWin32 : Bool) : Str :=
  if isWin32 then ['\r', '\n'] else ['\n']

/-- Source: `detectLineEnding` — CRLF if the text contains `"\r\n"`
anywhere, else LF if it contains `"\n"`, else the platform default. -/
def detectLineEnding (text : Str) (isWin32 : Bool) : Str :=
  if occursIn text ['\r', '\n'] then ['\r', '\n']
  else if occursIn text ['\n'] then ['\n']
  else platformLineEnding isWin32

/-- Source: `applyPlatformLineEndings` — normalize to LF, then re-expand
every LF to the target ending (an empty or missing target falls back to
the platform default, modelling the `||` fallback). -/
def applyPlatformLineEndings (text : Str) (target : Option Str) (isWin32 : Bool) : Str :=
  let normalized := normalizeLineEndings text
  let lineEnding := match target with
    | some t => if t = [] then platformLineEnding isWin32 else t
    | none => platformLineEnding isWin32
  if lineEnding = ['\n'] then normalized
  else normalized.flatMap fun ch => if ch = '\n' then lineEnding else [ch]

/-- Source: one edit operation of `applyFileEdits` —
`{oldText: string; newText: string}`. -/
structure EditOp where
  oldText : Str
  newText : Str
deriving DecidableEq, Repr

/-- List map that passes the element index to the function, as
JavaScript `Array.prototype.map((line, j) => ...)` does. -/
def mapWithIndexFrom (f : Nat → α → β) : Nat → List α → List β
  | _, [] => []
  | i, x :: xs => f i x :: mapWithIndexFrom f (i + 1) xs

/-- JavaScript `xs.map((x, j) => f j x)`. -/
def mapWithIndex (f : Nat → α → β) (xs : List α) : List β :=
  mapWithIndexFrom f 0 xs

/-- Source: the window comparison of the fuzzy branch — every anchor
line equals the corresponding content line after `trim()`. -/
def windowMatchesAt (cs oldLines : List Str) : Bool :=
  (oldLines.zip cs).all fun p => jsTrim p.1 == jsTrim p.2

/-- Source: the scan `for (let i = 0; i <= contentLines.length -
oldLines.length; i++)` — the first window index whose lines all match
the anchor lines up to surrounding whitespace. -/
def fuzzyFindFrom (oldLines : List Str) : List Str → Nat → Option Nat
  | cs, i =>
    if oldLines.length ≤ cs.length then
      if windowMatchesAt cs oldLines then some i
      else
        match cs with
        | [] => none
        | _ :: rest => fuzzyFindFrom oldLines rest (i + 1)
    else none

/-- First fuzzy-match window index in `contentLines`, if any. -/
def fuzzyFind (contentLines oldLines : List Str) : Option Nat :=
  fuzzyFindFrom oldLines contentLines 0

/-- Source: construction of one replacement line in the fuzzy branch.
Line 0 takes the matched window's first-line indentation; a later line
whose own indentation and the corresponding anchor line's indentation
are both non-empty takes the window indentation plus the clamped
indentation delta (`Math.max(0, relativeIndent)`, which is `Nat`
subtraction here); otherwise the line is emitted unchanged. -/
def replacementLine (originalIndent : Str) (oldLines : List Str) (j : Nat) (line : Str) : Str :=
  if j = 0 then originalIndent ++ jsTrimStart line
  else
    let oldIndent := indentOf (oldLines[j]?.getD [])
    let newIndent := indentOf line
    if oldIndent ≠ [] ∧ newIndent ≠ [] then
      originalIndent ++ List.replicate (newIndent.length - oldIndent.length) ' ' ++
        jsTrimStart line
    else line

/-- Source: the `splice` of the fuzzy branch — replace the matched
window at `i` by the indentation-adjusted replacement lines. -/
def fuzzyReplace (contentLines oldLines newLines : List Str) (i : Nat) : List Str :=
  let originalIndent := indentOf (contentLines[i]?.getD [])
  contentLines.take i ++
    mapWithIndex (replacementLine originalIndent oldLines) newLines ++
    contentLines.drop (i + oldLines.length)

/-- Source: the body of the per-edit loop of `applyFileEdits`: exact
substring replacement when the normalized `oldText` occurs, otherwise
the whitespace-tolerant window replacement, otherwise failure (`none`,
the `Could not find exact match` early return). -/
def applyOneEdit (content : Str) (edit : EditOp) : Option Str :=
  let normalizedOld := normalizeLineEndings edit.oldText
  let normalizedNew := normalizeLineEndings edit.newText
  if occursIn content normalizedOld then
    some (jsReplace content normalizedOld normalizedNew)
  else
    let oldLines := splitOn '\n' normalizedOld
    let contentLines := splitOn '\n' content
    match fuzzyFind contentLines oldLines with
    | some i =>
      some (joinWith '\n' (fuzzyReplace contentLines oldLines (splitOn '\n' normalizedNew) i))
    | none => none

/-- Source: `for (const edit of edits) ...` — edits folded over the
working content in array order; the first unmatched edit aborts with
that edit. -/
def applyEditsLoop (content : Str) : List EditOp → Except EditOp Str
  | [] => .ok content
  | e :: rest =>
    match applyOneEdit content e with
    | some content' => applyEditsLoop content' rest
    | none => .error e

/-- Kind of one line record of a structured unified-diff patch. -/
inductive DiffOp where
  | keep
  | del
  | ins
deriving DecidableEq, Repr

/-- Modelled from the spec (§4.3, §6): the npm `diff` library's patch
objects are not part of this repository; a unified diff is modelled by
its structured line content — kept (context), removed and added lines,
in order.  The textual rendering (`---`/`+++`/`@@` headers) and its
parser are inverse by §4.3 ("parsed into a structured format",
"re-serializing"), so patches are passed around in structured form. -/
abbrev LineDiff := List (DiffOp × Str)

/-- Lines of the old side of a patch (context and removed lines). -/
def oldLinesOf (d : LineDiff) : List Str :=
  d.filterMap fun e => match e.1 with
    | .ins => none
    | _ => some e.2

/-- Lines of the new side of a patch (context and added lines). -/
def newLinesOf (d : LineDiff) : List Str :=
  d.filterMap fun e => match e.1 with
    | .del => none
    | _ => some e.2

/-- Modelled from the spec (§4.3): `reversePatch` — swap each hunk's
added and removed line sets. -/
def reverseLineDiff (d : LineDiff) : LineDiff :=
  d.map fun e => match e.1 with
    | .keep => (DiffOp.keep, e.2)
    | .del => (DiffOp.ins, e.2)
    | .ins => (DiffOp.del, e.2)

/-- Modelled from the spec (§4.3): line diff of two contents — a
structured patch whose old side is exactly `a` and whose new side is
exactly `b`, with common leading lines kept as context (so equal
contents yield a change-free patch). -/
def mkLineDiff : List Str → List Str → LineDiff
  | [], [] => []
  | x :: xs, y :: ys =>
    if x = y then (DiffOp.keep, x) :: mkLineDiff xs ys
    else (x :: xs).map (fun l => (DiffOp.del, l)) ++ (y :: ys).map fun l => (DiffOp.ins, l)
  | xs, ys => xs.map (fun l => (DiffOp.del, l)) ++ ys.map fun l => (DiffOp.ins, l)

/-- Modelled from the spec (§4.4): `applyPatch` — context and removed
lines must match the source exactly, added lines are emitted; `none`
when the patch does not cleanly apply. -/
def applyLinePatch : List Str → LineDiff → Option (List Str)
  | src, [] => if src.isEmpty then some [] else none
  | src, (DiffOp.ins, l) :: d => (applyLinePatch src d).map (l :: ·)
  | [], (DiffOp.keep, _) :: _ => none
  | [], (DiffOp.del, _) :: _ => none
  | s :: src, (DiffOp.keep, l) :: d =>
    if s = l then (applyLinePatch src d).map (l :: ·) else none
  | s :: src, (DiffOp.del, l) :: d =>
    if s = l then applyLinePatch src d else none

/-- Source: `createUnifiedDiff` — diff of the two contents after
line-ending normalization (structured form). -/
def createUnifiedDiffModel (originalContent newContent : Str) : LineDiff :=
  mkLineDiff (splitOn '\n' (normalizeLineEndings originalContent))
    (splitOn '\n' (normalizeLineEndings newContent))

/-- Source: `createReverseUnifiedDiff` — the forward diff, parsed,
reversed and re-serialized (structured form). -/
def createReverseUnifiedDiffModel (originalContent newContent : Str) : LineDiff :=
  reverseLineDiff (createUnifiedDiffModel originalContent newContent)

/-- Source: `applyReversePatch` — apply the (single) patch of the
reverse diff to the current content; `none` models the
`Failed to apply reverse patch` outcome. -/
def applyReversePatchModel (currentContent : Str) (d : LineDiff) : Option Str :=
  (applyLinePatch (splitOn '\n' currentContent) d).map (joinWith '\n')

/-- Result of `applyFileEdits`, restricted to the fields the claims
are about.  `rawDiff`/`reverseDiff` are `none` on the `EditNotFound`
early return (the code returns empty strings there); `written` is the
content passed to `fs.writeFile`, `none` when no write happens. -/
structure FileEditOutcome where
  rawDiff : Option LineDiff
  reverseDiff : Option LineDiff
  fileExists : Bool
  newFileCreated : Bool
  validEdits : Bool
  written : Option Str
deriving DecidableEq, Repr

/-- Source: `originalContent` of `applyFileEdits` — the file's content
normalized to LF, or empty when the file does not exist. -/
def originalContentOf (fileContent : Option Str) : Str :=
  match fileContent with
  | some raw => normalizeLineEndings raw
  | none => []

/-- Source: `originalLineEnding` of `applyFileEdits` — detected from
the raw content, or the platform default for a missing file. -/
def originalLineEndingOf (fileContent : Option Str) (isWin32 : Bool) : Str :=
  match fileContent with
  | some raw => detectLineEnding raw isWin32
  | none => platformLineEnding isWin32

/-- Source: `applyFileEdits` on a file whose on-disk content is
`fileContent` (`none`: the file does not exist).  `content` replaces
the working content outright; otherwise `edits` are folded in array
order; an unmatched edit returns the error outcome before any write.
On success the forward and reverse diffs are produced, `validEdits` is
the end-of-call comparison of original and modified content, and the
modified content is written with the original line endings
re-applied. -/
def applyFileEditsModel (fileContent : Option Str) (isWin32 : Bool)
    (edits : Option (List EditOp)) (content : Option Str) : FileEditOutcome :=
  let originalContent := originalContentOf fileContent
  let fileExists := fileContent.isSome
  let step : Except EditOp Str :=
    match content with
    | some c => .ok (normalizeLineEndings c)
    | none =>
      match edits with
      | some es => applyEditsLoop originalContent es
      | none => .ok originalContent
  match step with
  | .error _ =>
    { rawDiff := none, reverseDiff := none, fileExists := fileExists,
      newFileCreated := false, validEdits := false, written := none }
  | .ok modifiedContent =>
    { rawDiff := some (createUnifiedDiffModel originalContent modifiedContent)
      reverseDiff := some (createReverseUnifiedDiffModel originalContent modifiedContent)
      fileExists := fileExists
      newFileCreated := !fileExists
      validEdits := decide (¬ originalContent = modifiedContent)
      written := some (applyPlatformLineEndings modifiedContent
        (some (originalLineEndingOf fileContent isWin32)) isWin32) }

/-- POSIX `path.isAbsolute`: the path starts with a slash.  (The
repository's path handling is modelled with POSIX semantics, the
platform its test suite runs on.) -/
def isAbsolutePath (p : Str) : Bool := decide (p.head? = some '/')

/-- Segment fold of POSIX path resolution for an absolute path: empty
and `.` segments vanish, `..` pops (and is dropped at the root). -/
def resolveSegs (segs : List Str) : List Str :=
  segs.foldl
    (fun acc seg =>
      if seg = [] ∨ seg = ['.'] then acc
      else if seg = ['.', '.'] then acc.dropLast
      else acc ++ [seg])
    []

/-- Renders resolved segments as an absolute path (`[]` is `/`). -/
def joinSegsAbs (segs : List Str) : Str := '/' :: joinWith '/' segs

/-- POSIX `path.resolve(p)` for an absolute `p`. -/
def resolveAbs (p : Str) : Str := joinSegsAbs (resolveSegs (splitOn '/' p))

/-- POSIX `path.resolve(base, p)` for an absolute `base` and relative
`p`. -/
def resolveFrom (base p : Str) : Str :=
  joinSegsAbs (resolveSegs (splitOn '/' (base ++ '/' :: p)))

/-- POSIX `path.resolve` with one argument, falling back to the process
working directory for a relative path. -/
def resolveOne (cwd p : Str) : Str :=
  if isAbsolutePath p then resolveAbs p else resolveFrom cwd p

/-- Source: the resolution of the requested path in `validatePath` —
`path.isAbsolute(p) ? path.resolve(p) : path.resolve(parentDir, p)`,
with the working directory entering when `parentDir` is itself
relative. -/
def resolvedRequested (cwd parentDir p : Str) : Str :=
  if isAbsolutePath p then resolveAbs p
  else if isAbsolutePath parentDir then resolveFrom parentDir p
  else resolveFrom cwd (parentDir ++ '/' :: p)

/-- Source: `normalizePath` — `path.normalize`.  Every call site feeds
it an already-absolute path (an output of `path.resolve` or
`fs.realpath`), where POSIX normalization is the segment fold; relative
input is returned unchanged (unreached). -/
def normalizePath (p : Str) : Str :=
  if isAbsolutePath p then resolveAbs p else p

/-- POSIX `path.dirname` of an absolute path. -/
def dirnamePosix (p : Str) : Str :=
  match (splitOn '/' p).dropLast with
  | [] => p
  | [[]] => ['/']
  | ss => joinWith '/' ss

/-- Source: `expandHome` — `~` and `~/...` expand to the home
directory (`path.join(os.homedir(), filepath.slice(1))`). -/
def expandHome (home p : Str) : Str :=
  if ['~', '/'] <+: p ∨ p = ['~'] then resolveAbs (home ++ '/' :: p.drop 1)
  else p

/-- Filesystem view the path validator probes: the process working
directory, the home directory, `lstat` (`none`: the path does not
exist / the call throws; `some b`: exists, `b` iff it is a symbolic
link) and `realpath` (`none`: the call throws). -/
structure FsView where
  cwd : Str
  home : Str
  lstat : Str → Option Bool
  realpath : Str → Option Str

/-- Errors surfaced by `validatePath`, classified by message:
`accessDenied` for the `Access denied - path outside allowed
directories` throw, `parentMissing` for the `Parent directory does not
exist` throw. -/
inductive PathError where
  | accessDenied
  | parentMissing
deriving DecidableEq, Repr

/-- Source: `validatePath(parentDir, requestedPath, allowedDirectories)`
of `src/unnamed/part_004`.  The allow-list gate is a plain
`String.startsWith` on normalized resolved paths.  Past the gate: an
existing non-symlink is returned as-is; an existing symlink is resolved
and its target returned unvalidated; for a missing path the real parent
directory is checked against the same `startsWith` gate — note that the
inner `Access denied - parent directory...` throw is swallowed by the
bare `catch` and re-thrown as `Parent directory does not exist`, so
that branch surfaces as `parentMissing`. -/
def validatePathModel (fs : FsView) (parentDir requestedPath : Str)
    (allowedDirectories : List Str) : Except PathError Str :=
  let expandedParentDir := expandHome fs.home parentDir
  let expandedPath := expandHome fs.home requestedPath
  let absolute := resolvedRequested fs.cwd expandedParentDir expandedPath
  let normalizedRequested := normalizePath absolute
  let normalizedAllowed := allowedDirectories.map fun dir =>
    normalizePath (resolveOne fs.cwd (expandHome fs.home dir))
  if ¬ normalizedAllowed.any (fun dir => dir.isPrefixOf normalizedRequested) then
    .error .accessDenied
  else
    let parentCheck : Except PathError Str :=
      let parent := dirnamePosix absolute
      match fs.realpath parent with
      | none => .error .parentMissing
      | some realParentPath =>
        if normalizedAllowed.any (fun dir => dir.isPrefixOf (normalizePath realParentPath)) then
          .ok absolute
        else .error .parentMissing
    match fs.lstat absolute with
    | some true =>
      match fs.realpath absolute with
      | some realPath => .ok realPath
      | none => parentCheck
    | some false => .ok absolute
    | none => parentCheck

deriving instance DecidableEq for Except

/-- First line break encountered when scanning the text left to right:
`some "\r\n"` when it is a Windows break, `some "\n"` when it is a bare
line feed, `none` when the text has no line break.  (Vocabulary for the
claimed reading of `detectLineEnding`; the source scans with two global
`includes` probes instead.) -/
def firstLineBreak : Str → Option Str
  | [] => none
  | ch :: rest =>
    if ch = '\n' then some ['\n']
    else if ch = '\r' ∧ rest.head? = some '\n' then some ['\r', '\n']
    else firstLineBreak rest

theorem splitOn_ne_nil (sep : Char) (s : Str) : splitOn sep s ≠ [] := by
  induction s with
  | nil => simp [splitOn]
  | cons ch rest ih =>
    by_cases h : ch = sep
    · simp [splitOn, h]
    · cases hr : splitOn sep rest with
      | nil => simp [splitOn, h, hr]
      | cons l ls => simp [splitOn, h, hr]

theorem joinWith_splitOn (sep : Char) (s : Str) : joinWith sep (splitOn sep s) = s := by
  induction s with
  | nil => rfl
  | cons ch rest ih =>
    by_cases h : ch = sep
    · cases hr : splitOn sep rest with
      | nil => exact absurd hr (splitOn_ne_nil sep rest)
      | cons l ls =>
        subst h
        rw [hr] at ih
        simp only [splitOn, if_pos rfl, hr, joinWith, List.nil_append]
        rw [ih]
    · cases hr : splitOn sep rest with
      | nil => exact absurd hr (splitOn_ne_nil sep rest)
      | cons l ls =>
        rw [hr] at ih
        cases ls with
        | nil =>
          simp only [splitOn, if_neg h, hr, joinWith] at *
          rw [ih]
        | cons l' ls' =>
          simp only [splitOn, if_neg h, hr, joinWith, List.cons_append] at *
          rw [ih]

theorem splitFirst_eq_some {pat c b a : Str} (h : splitFirst pat c = some (b, a)) :
    c = b ++ pat ++ a := by
  induction c generalizing b a with
  | nil =>
    by_cases hp : pat <+: ([] : Str)
    · have hpat : pat = [] := List.prefix_nil.mp hp
      simp only [splitFirst, if_pos hp, Option.some.injEq, Prod.mk.injEq] at h
      obtain ⟨hb, ha⟩ := h
      subst hb
      subst ha
      simp [hpat]
    · simp [splitFirst, hp] at h
  | cons ch rest ih =>
    by_cases hp : pat <+: (ch :: rest)
    · simp only [splitFirst, if_pos hp, Option.some.injEq, Prod.mk.injEq] at h
      obtain ⟨hb, ha⟩ := h
      subst hb
      subst ha
      obtain ⟨t, ht⟩ := hp
      rw [← ht, List.drop_left]
      simp
    · simp only [splitFirst, if_neg hp, Option.map_eq_some'] at h
      obtain ⟨⟨b', a'⟩, hba, heq⟩ := h
      simp only [Prod.mk.injEq] at heq
      obtain ⟨hb, ha⟩ := heq
      subst hb
      subst ha
      simp [ih hba]

theorem splitFirst_isSome {pat c : Str} (h : pat <:+: c) :
    (splitFirst pat c).isSome = true := by
  induction c with
  | nil =>
    have hpat : pat = [] := List.infix_nil.mp h
    simp [splitFirst, hpat]
  | cons ch rest ih =>
    by_cases hp : pat <+: (ch :: rest)
    · simp [splitFirst, hp]
    · have hrest : pat <:+: rest := by
        obtain ⟨s, t, hst⟩ := h
        cases s with
        | nil =>
          exact absurd ⟨t, by simpa using hst⟩ hp
        | cons x s' =>
          refine ⟨s', t, ?_⟩
          have := hst
          simp only [List.cons_append, List.cons.injEq] at this
          exact this.2
      simp [splitFirst, hp, ih hrest]

theorem occursIn_iff_contained {c pat : Str} : occursIn c pat = true ↔ pat <:+: c := by
  constructor
  · intro h
    obtain ⟨⟨b, a⟩, hba⟩ := Option.isSome_iff_exists.mp h
    exact ⟨b, a, by simp [← splitFirst_eq_some hba]⟩
  · exact splitFirst_isSome

theorem singleton_infix_iff {x : Char} {c : Str} : [x] <:+: c ↔ x ∈ c := by
  constructor
  · rintro ⟨s, t, rfl⟩
    simp
  · intro hx
    obtain ⟨s, t, rfl⟩ := List.append_of_mem hx
    exact ⟨s, t, by simp⟩

theorem getSubstitution_of_not_dollar {r : Str} (m b a : Str) (h : '$' ∉ r) :
    getSubstitution m b a r = r := by
  induction r with
  | nil => rfl
  | cons ch rest ih =>
    have hch : ch ≠ '$' := fun hc => h (hc ▸ List.mem_cons_self ch rest)
    cases rest with
    | nil => rfl
    | cons next rest' =>
      have hm : '$' ∉ (next :: rest') := fun hmem => h (List.mem_cons_of_mem ch hmem)
      simp only [getSubstitution, if_neg hch]
      rw [ih hm]

theorem jsReplace_self {c pat : Str} (h : occursIn c pat = true) (hd : '$' ∉ pat) :
    jsReplace c pat pat = c := by
  obtain ⟨⟨b, a⟩, hba⟩ := Option.isSome_iff_exists.mp h
  unfold jsReplace
  rw [hba]
  show b ++ getSubstitution pat b a pat ++ a = c
  rw [getSubstitution_of_not_dollar pat b a hd]
  exact (splitFirst_eq_some hba).symm

theorem oldLinesOf_cons_keep (l : Str) (d : LineDiff) :
    oldLinesOf ((DiffOp.keep, l) :: d) = l :: oldLinesOf d := rfl

theorem oldLinesOf_dels (ls : List Str) :
    oldLinesOf (ls.map fun l => (DiffOp.del, l)) = ls := by
  induction ls with
  | nil => rfl
  | cons l ls ih => simp only [List.map_cons, oldLinesOf, List.filterMap_cons] at *; rw [ih]

theorem oldLinesOf_inss (ls : List Str) :
    oldLinesOf (ls.map fun l => (DiffOp.ins, l)) = [] := by
  induction ls with
  | nil => rfl
  | cons l ls ih => simp only [List.map_cons, oldLinesOf, List.filterMap_cons] at *; exact ih

theorem newLinesOf_dels (ls : List Str) :
    newLinesOf (ls.map fun l => (DiffOp.del, l)) = [] := by
  induction ls with
  | nil => rfl
  | cons l ls ih => simp only [List.map_cons, newLinesOf, List.filterMap_cons] at *; exact ih

theorem newLinesOf_inss (ls : List Str) :
    newLinesOf (ls.map fun l => (DiffOp.ins, l)) = ls := by
  induction ls with
  | nil => rfl
  | cons l ls ih => simp only [List.map_cons, newLinesOf, List.filterMap_cons] at *; rw [ih]

theorem oldLinesOf_append (d₁ d₂ : LineDiff) :
    oldLinesOf (d₁ ++ d₂) = oldLinesOf d₁ ++ oldLinesOf d₂ :=
  List.filterMap_append ..

theorem newLinesOf_append (d₁ d₂ : LineDiff) :
    newLinesOf (d₁ ++ d₂) = newLinesOf d₁ ++ newLinesOf d₂ :=
  List.filterMap_append ..

theorem oldLinesOf_mkLineDiff (a b : List Str) : oldLinesOf (mkLineDiff a b) = a := by
  induction a generalizing b with
  | nil =>
    cases b with
    | nil => rfl
    | cons y ys =>
      rw [show mkLineDiff [] (y :: ys) =
        ([] : List Str).map (fun l => (DiffOp.del, l)) ++
          (y :: ys).map (fun l => (DiffOp.ins, l)) from rfl]
      rw [oldLinesOf_append, oldLinesOf_dels, oldLinesOf_inss]
      rfl
  | cons x xs ih =>
    cases b with
    | nil =>
      rw [show mkLineDiff (x :: xs) [] =
        (x :: xs).map (fun l => (DiffOp.del, l)) ++
          ([] : List Str).map (fun l => (DiffOp.ins, l)) from rfl]
      rw [oldLinesOf_append, oldLinesOf_dels, oldLinesOf_inss, List.append_nil]
    | cons y ys =>
      by_cases hxy : x = y
      · simp only [mkLineDiff, if_pos hxy, oldLinesOf_cons_keep, ih ys]
      · simp only [mkLineDiff, if_neg hxy]
        rw [oldLinesOf_append, oldLinesOf_dels, oldLinesOf_inss, List.append_nil]

theorem newLinesOf_mkLineDiff (a b : List Str) : newLinesOf (mkLineDiff a b) = b := by
  induction a generalizing b with
  | nil =>
    cases b with
    | nil => rfl
    | cons y ys =>
      rw [show mkLineDiff [] (y :: ys) =
        ([] : List Str).map (fun l => (DiffOp.del, l)) ++
          (y :: ys).map (fun l => (DiffOp.ins, l)) from rfl]
      rw [newLinesOf_append, newLinesOf_dels, newLinesOf_inss, List.nil_append]
  | cons x xs ih =>
    cases b with
    | nil =>
      rw [show mkLineDiff (x :: xs) [] =
        (x :: xs).map (fun l => (DiffOp.del, l)) ++
          ([] : List Str).map (fun l => (DiffOp.ins, l)) from rfl]
      rw [newLinesOf_append, newLinesOf_dels, newLinesOf_inss, List.nil_append]
    | cons y ys =>
      by_cases hxy : x = y
      · have hk : newLinesOf ((DiffOp.keep, x) :: mkLineDiff xs ys) =
            x :: newLinesOf (mkLineDiff xs ys) := rfl
        simp only [mkLineDiff, if_pos hxy, hk, ih ys]
        rw [hxy]
      · simp only [mkLineDiff, if_neg hxy]
        rw [newLinesOf_append, newLinesOf_dels, newLinesOf_inss, List.nil_append]

theorem oldLinesOf_reverseLineDiff (d : LineDiff) :
    oldLinesOf (reverseLineDiff d) = newLinesOf d := by
  induction d with
  | nil => rfl
  | cons e d ih =>
    obtain ⟨op, l⟩ := e
    cases op <;>
      simp only [reverseLineDiff, List.map_cons, oldLinesOf, newLinesOf,
        List.filterMap_cons] at * <;> rw [ih]

theorem newLinesOf_reverseLineDiff (d : LineDiff) :
    newLinesOf (reverseLineDiff d) = oldLinesOf d := by
  induction d with
  | nil => rfl
  | cons e d ih =>
    obtain ⟨op, l⟩ := e
    cases op <;>
      simp only [reverseLineDiff, List.map_cons, oldLinesOf, newLinesOf,
        List.filterMap_cons] at * <;> rw [ih]

theorem applyLinePatch_oldLinesOf (d : LineDiff) :
    applyLinePatch (oldLinesOf d) d = some (newLinesOf d) := by
  induction d with
  | nil => rfl
  | cons e d ih =>
    obtain ⟨op, l⟩ := e
    cases op with
    | keep =>
      have ho : oldLinesOf ((DiffOp.keep, l) :: d) = l :: oldLinesOf d := rfl
      have hn : newLinesOf ((DiffOp.keep, l) :: d) = l :: newLinesOf d := rfl
      rw [ho, hn]
      simp [applyLinePatch, ih]
    | del =>
      have ho : oldLinesOf ((DiffOp.del, l) :: d) = l :: oldLinesOf d := rfl
      have hn : newLinesOf ((DiffOp.del, l) :: d) = newLinesOf d := rfl
      rw [ho, hn]
      simp [applyLinePatch, ih]
    | ins =>
      have ho : oldLinesOf ((DiffOp.ins, l) :: d) = oldLinesOf d := rfl
      have hn : newLinesOf ((DiffOp.ins, l) :: d) = l :: newLinesOf d := rfl
      rw [ho, hn]
      cases hsrc : oldLinesOf d with
      | nil => rw [← hsrc]; simp [applyLinePatch, ih]
      | cons s src => rw [← hsrc]; simp [applyLinePatch, ih]

theorem applyLinePatch_reverse (A B : List Str) :
    applyLinePatch B (reverseLineDiff (mkLineDiff A B)) = some A := by
  have h := applyLinePatch_oldLinesOf (reverseLineDiff (mkLineDiff A B))
  rw [oldLinesOf_reverseLineDiff, newLinesOf_mkLineDiff, newLinesOf_reverseLineDiff,
    oldLinesOf_mkLineDiff] at h
  exact h

theorem reverse_diff_round_trip (o m : Str) :
    applyReversePatchModel (normalizeLineEndings m) (createReverseUnifiedDiffModel o m) =
      some (normalizeLineEndings o) := by
  unfold applyReversePatchModel createReverseUnifiedDiffModel createUnifiedDiffModel
  rw [applyLinePatch_reverse]
  simp [joinWith_splitOn]

theorem mkLineDiff_self_keep (ls : List Str) :
    ∀ p ∈ mkLineDiff ls ls, p.1 = DiffOp.keep := by
  induction ls with
  | nil => simp [mkLineDiff]
  | cons x xs ih =>
    intro p hp
    have hmk : mkLineDiff (x :: xs) (x :: xs) = (DiffOp.keep, x) :: mkLineDiff xs xs := by
      simp [mkLineDiff]
    rw [hmk] at hp
    rcases List.mem_cons.mp hp with h | h
    · subst h
      rfl
    · exact ih p h

theorem mapWithIndexFrom_getElem? (f : Nat → α → β) (n j : Nat) (xs : List α) :
    (mapWithIndexFrom f n xs)[j]? = xs[j]?.map (f (n + j)) := by
  induction xs generalizing n j with
  | nil => simp [mapWithIndexFrom]
  | cons x xs ih =>
    cases j with
    | zero => simp [mapWithIndexFrom]
    | succ j =>
      simp only [mapWithIndexFrom, List.getElem?_cons_succ, ih (n + 1) j]
      have : n + 1 + j = n + (j + 1) := by omega
      rw [this]

theorem applyEditsLoop_append (c : Str) (es₁ es₂ : List EditOp) :
    applyEditsLoop c (es₁ ++ es₂) =
      match applyEditsLoop c es₁ with
      | .ok c' => applyEditsLoop c' es₂
      | .error e => .error e := by
  induction es₁ generalizing c with
  | nil => rfl
  | cons e es ih =>
    simp only [List.cons_append, applyEditsLoop]
    cases applyOneEdit c e with
    | none => rfl
    | some c' => exact ih c'

theorem splitFirst_nil_pat (c : Str) : splitFirst [] c = some ([], c) := by
  cases c with
  | nil => simp [splitFirst, List.nil_prefix]
  | cons ch rest => simp [splitFirst, List.nil_prefix]

theorem occursIn_nil (c : Str) : occursIn c [] = true := by
  simp [occursIn, splitFirst_nil_pat]

theorem expandHome_of_head (home : Str) {p : Str} (h : p.head? ≠ some '~') :
    expandHome home p = p := by
  unfold expandHome
  rw [if_neg]
  rintro (hp | hp)
  · obtain ⟨t, ht⟩ := hp
    rw [← ht] at h
    simp at h
  · subst hp
    simp at h

theorem int_clamp_toNat (a b : Nat) : (max 0 ((a : Int) - b)).toNat = a - b := by
  rcases Nat.le_total b a with hba | hab
  · rw [max_eq_right (by omega : (0 : Int) ≤ (a : Int) - b)]
    omega
  · rw [max_eq_left (by omega : (a : Int) - b ≤ 0)]
    omega

/-- Counterexample to claim C1 as stated: on the original `x\ny`, the
edit `x → "a\r"` succeeds and produces the modified content `a\r\ny`,
whose stray carriage return now precedes the next line's feed; the
diffs are computed over the once-more LF-normalized contents (`a\ny`),
so applying the reverse diff to the modified content itself fails
(`none`) instead of restoring the original byte for byte. -/
theorem C1_counterexample :
    applyEditsLoop (originalContentOf (some "x\ny".data)) [⟨"x".data, "a\r".data⟩] =
      .ok "a\r\ny".data ∧
    applyReversePatchModel "a\r\ny".data
      (createReverseUnifiedDiffModel (originalContentOf (some "x\ny".data)) "a\r\ny".data) =
      none := by
  decide

/-- Claim C1 (amended, round-trip): for every on-disk original content
and every edit list that `applyFileEdits` applies successfully
producing modified content `m`, the call's `reverseDiff` is the
structured reverse diff of original and modified content, and —
provided the original and modified contents are fixed points of LF
normalization, that is, contain no carriage return immediately
followed by a line feed — applying that reverse diff (as
`applyReversePatch` does) to `m` itself yields the original content
exactly, byte for byte. -/
theorem C1_reverse_diff_round_trip (raw : Str) (isWin32 : Bool) (es : List EditOp) (m : Str)
    (h : applyEditsLoop (originalContentOf (some raw)) es = .ok m)
    (hm : normalizeLineEndings m = m)
    (ho : normalizeLineEndings (originalContentOf (some raw)) = originalContentOf (some raw)) :
    (applyFileEditsModel (some raw) isWin32 (some es) none).reverseDiff =
      some (createReverseUnifiedDiffModel (originalContentOf (some raw)) m) ∧
    applyReversePatchModel m
      (createReverseUnifiedDiffModel (originalContentOf (some raw)) m) =
      some (originalContentOf (some raw)) := by
  constructor
  · simp only [applyFileEditsModel, h]
  · have hr := reverse_diff_round_trip (originalContentOf (some raw)) m
    rw [hm, ho] at hr
    exact hr

/-- Witness for C1 at a concrete input: editing `b` to `X` in
`a\nb\nc` (both contents free of carriage returns) and applying the
reverse diff to the modified content restores the original exactly. -/
theorem C1_reverse_diff_round_trip_witness :
    applyReversePatchModel "a\nX\nc".data
      (createReverseUnifiedDiffModel (originalContentOf (some "a\nb\nc".data)) "a\nX\nc".data) =
      some (originalContentOf (some "a\nb\nc".data)) :=
  (C1_reverse_diff_round_trip "a\nb\nc".data false [⟨"b".data, "X".data⟩] "a\nX\nc".data
    (by decide) (by decide) (by decide)).2

/-- Claim C3: an edit list containing an operation that matches the
working content neither exactly nor fuzzily makes `applyFileEdits`
return the error outcome — `validEdits` false, no diffs — and perform
no write at all (`written = none`), even though earlier edits had
already mutated the in-memory working content. -/
theorem C3_unmatched_edit_aborts_without_write (fileContent : Option Str) (isWin32 : Bool)
    (es : List EditOp) (e : EditOp)
    (h : applyEditsLoop (originalContentOf fileContent) es = .error e) :
    (applyFileEditsModel fileContent isWin32 (some es) none).validEdits = false ∧
    (applyFileEditsModel fileContent isWin32 (some es) none).rawDiff = none ∧
    (applyFileEditsModel fileContent isWin32 (some es) none).reverseDiff = none ∧
    (applyFileEditsModel fileContent isWin32 (some es) none).written = none := by
  simp [applyFileEditsModel, h]

/-- Witness for C3 at a concrete input: the first edit applies, the
second does not match, and nothing is written. -/
theorem C3_unmatched_edit_aborts_without_write_witness :
    (applyFileEditsModel (some "hello".data) false
      (some [⟨"hello".data, "world".data⟩, ⟨"zz".data, "y".data⟩]) none).written = none :=
  (C3_unmatched_edit_aborts_without_write (some "hello".data) false
    [⟨"hello".data, "world".data⟩, ⟨"zz".data, "y".data⟩] ⟨"zz".data, "y".data⟩
    (by decide)).2.2.2

/-- Claim C4: edits are folded sequentially in array order — the loop
over a concatenation runs the first segment and feeds its result to
the second — and order matters: on content `a`, the list
`[a → b, b → c]` succeeds producing `c`, while the swapped list
`[b → c, a → b]` fails on its first edit. -/
theorem C4_edits_applied_sequentially :
    (∀ (content : Str) (es₁ es₂ : List EditOp),
      applyEditsLoop content (es₁ ++ es₂) =
        match applyEditsLoop content es₁ with
        | .ok c' => applyEditsLoop c' es₂
        | .error e => .error e) ∧
    applyEditsLoop "a".data [⟨"a".data, "b".data⟩, ⟨"b".data, "c".data⟩] = .ok "c".data ∧
    applyEditsLoop "a".data [⟨"b".data, "c".data⟩, ⟨"a".data, "b".data⟩] =
      .error ⟨"b".data, "c".data⟩ :=
  ⟨fun c es₁ es₂ => applyEditsLoop_append c es₁ es₂, by decide, by decide⟩

/-- Counterexample to claim C6 as stated: the edit's `oldText` (`$$`)
occurs in the content `a$$b` and equals its `newText`, yet the call
reports `validEdits = true` — JavaScript `String.replace` interprets
`$$` in the replacement as a single dollar sign, so the content
changes to `a$b`. -/
theorem C6_counterexample :
    occursIn (originalContentOf (some "a$$b".data)) (normalizeLineEndings "$$".data) = true ∧
    normalizeLineEndings "$$".data = normalizeLineEndings "$$".data ∧
    (applyFileEditsModel (some "a$$b".data) false
      (some [⟨"$$".data, "$$".data⟩]) none).validEdits = true := by
  decide

/-- Claim C6 (amended): for every `applyFileEdits` call whose edit loop
succeeds, `validEdits` is true iff the normalized original content and
the final modified content differ (a single end-of-call comparison);
and every edit whose `oldText` occurs in the content and equals its
`newText` — provided the text contains no dollar sign, which JavaScript
`String.replace` would substitute — does not error, returns
`validEdits = false`, and produces a `rawDiff` with no changes (every
record is a kept line). -/
theorem C6_valid_edits_iff_changed :
    (∀ (fileContent : Option Str) (isWin32 : Bool) (es : List EditOp) (m : Str),
      applyEditsLoop (originalContentOf fileContent) es = .ok m →
      ((applyFileEditsModel fileContent isWin32 (some es) none).validEdits = true ↔
        originalContentOf fileContent ≠ m)) ∧
    (∀ (fileContent : Option Str) (isWin32 : Bool) (old new : Str),
      occursIn (originalContentOf fileContent) (normalizeLineEndings old) = true →
      normalizeLineEndings old = normalizeLineEndings new →
      '$' ∉ normalizeLineEndings new →
      (applyFileEditsModel fileContent isWin32 (some [⟨old, new⟩]) none).validEdits = false ∧
      (applyFileEditsModel fileContent isWin32 (some [⟨old, new⟩]) none).written.isSome = true ∧
      ∃ d, (applyFileEditsModel fileContent isWin32 (some [⟨old, new⟩]) none).rawDiff = some d ∧
        ∀ p ∈ d, p.1 = DiffOp.keep) := by
  constructor
  · intro fileContent isWin32 es m h
    simp [applyFileEditsModel, h]
  · intro fileContent isWin32 old new ho heq hd
    have hd' : '$' ∉ normalizeLineEndings old := by rw [heq]; exact hd
    have hone : applyOneEdit (originalContentOf fileContent) ⟨old, new⟩ =
        some (originalContentOf fileContent) := by
      unfold applyOneEdit
      simp only [if_pos ho, Option.some.injEq]
      rw [← heq]
      exact jsReplace_self ho hd'
    have hloop : applyEditsLoop (originalContentOf fileContent) [⟨old, new⟩] =
        .ok (originalContentOf fileContent) := by
      simp [applyEditsLoop, hone]
    refine ⟨?_, ?_, createUnifiedDiffModel (originalContentOf fileContent)
      (originalContentOf fileContent), ?_, ?_⟩
    · simp [applyFileEditsModel, hloop]
    · simp [applyFileEditsModel, hloop]
    · simp [applyFileEditsModel, hloop]
    · intro p hp
      exact mkLineDiff_self_keep _ p hp

/-- Witness for C6 at a concrete input: replacing `hello` by `hello`
in `hello world` reports `validEdits = false`. -/
theorem C6_valid_edits_iff_changed_witness :
    (applyFileEditsModel (some "hello world".data) false
      (some [⟨"hello".data, "hello".data⟩]) none).validEdits = false :=
  (C6_valid_edits_iff_changed.2 (some "hello world".data) false "hello".data "hello".data
    (by decide) (by decide) (by decide)).1

/-- Counterexample to claim C7 as stated: in `a\nb\r\nc` the first
line break encountered is a bare line feed, yet `detectLineEnding`
returns CRLF, because it probes `includes("\r\n")` over the whole text
first. -/
theorem C7_counterexample :
    firstLineBreak "a\nb\r\nc".data = some ['\n'] ∧
    detectLineEnding "a\nb\r\nc".data false = ['\r', '\n'] := by
  decide

/-- Claim C7 (amended): line-ending detection returns CRLF when the
sequence `\r\n` occurs anywhere in the text (regardless of earlier
bare line feeds), LF when no `\r\n` occurs but a line feed does, and
the host platform's convention when the text contains no line feed at
all. -/
theorem C7_line_ending_detection (text : Str) (isWin32 : Bool) :
    (['\r', '\n'] <:+: text → detectLineEnding text isWin32 = ['\r', '\n']) ∧
    (¬ ['\r', '\n'] <:+: text → '\n' ∈ text → detectLineEnding text isWin32 = ['\n']) ∧
    ('\n' ∉ text → detectLineEnding text isWin32 = platformLineEnding isWin32) := by
  refine ⟨?_, ?_, ?_⟩
  · intro h
    unfold detectLineEnding
    rw [if_pos (occursIn_iff_contained.mpr h)]
  · intro hno hlf
    unfold detectLineEnding
    rw [if_neg, if_pos (occursIn_iff_contained.mpr (singleton_infix_iff.mpr hlf))]
    intro hc
    exact hno (occursIn_iff_contained.mp hc)
  · intro hlf
    have hno : ¬ ['\r', '\n'] <:+: text := by
      rintro ⟨s, t, rfl⟩
      exact hlf (by simp)
    unfold detectLineEnding
    rw [if_neg, if_neg]
    · intro hc
      exact hlf (singleton_infix_iff.mp (occursIn_iff_contained.mp hc))
    · intro hc
      exact hno (occursIn_iff_contained.mp hc)

/-- Witness for C7 at concrete inputs: a CRLF text detects CRLF, an
LF text detects LF, a break-free text falls back to the platform
convention. -/
theorem C7_line_ending_detection_witness :
    detectLineEnding "a\r\nb".data false = ['\r', '\n'] ∧
    detectLineEnding "a\nb".data false = ['\n'] ∧
    detectLineEnding "ab".data true = platformLineEnding true :=
  ⟨(C7_line_ending_detection "a\r\nb".data false).1 (by decide),
   (C7_line_ending_detection "a\nb".data false).2.1 (by decide) (by decide),
   (C7_line_ending_detection "ab".data true).2.2 (by decide)⟩

/-- Counterexample to claim C8 as stated: with `oldText = ""` and
`newText = "$&"` on content `ab`, the exact-match branch fires but
JavaScript `String.replace` substitutes `$&` by the (empty) match, so
the result is `ab`, not `newText` prepended to the content. -/
theorem C8_counterexample :
    applyOneEdit "ab".data ⟨[], "$&".data⟩ = some "ab".data ∧
    "ab".data ≠ normalizeLineEndings "$&".data ++ "ab".data := by
  decide

/-- Claim C8 (amended): for every working content and every edit whose
`oldText` is empty, the exact-match branch fires — the operation never
reaches fuzzy matching and never fails — and, provided `newText`
contains no dollar sign (which `String.replace` would substitute), the
result is exactly the normalized `newText` prepended to the
content. -/
theorem C8_empty_old_text (content new : Str) :
    (applyOneEdit content ⟨[], new⟩).isSome = true ∧
    ('$' ∉ normalizeLineEndings new →
      applyOneEdit content ⟨[], new⟩ = some (normalizeLineEndings new ++ content)) := by
  have hocc : occursIn content (normalizeLineEndings ([] : Str)) = true := occursIn_nil content
  constructor
  · unfold applyOneEdit
    simp [if_pos hocc]
  · intro hd
    unfold applyOneEdit
    rw [if_pos hocc]
    unfold jsReplace
    rw [show normalizeLineEndings ([] : Str) = [] from rfl, splitFirst_nil_pat]
    show some ([] ++ getSubstitution [] [] content (normalizeLineEndings new) ++ content) = _
    rw [getSubstitution_of_not_dollar _ _ _ hd]
    rfl

/-- Witness for C8 at a concrete input: an empty `oldText` with
`newText = "x"` prepends `x` to `ab`. -/
theorem C8_empty_old_text_witness :
    applyOneEdit "ab".data ⟨[], "x".data⟩ =
      some (normalizeLineEndings "x".data ++ "ab".data) :=
  (C8_empty_old_text "ab".data "x".data).2 (by decide)

/-- Claim C2 evaluated at its failing input: with allow-list
`[/allowed]`, a request for `/allowed-2/file.txt` (which exists as a
regular file, no symlinks anywhere) is accepted and returned, because
the containment gate is a plain string `startsWith`; the accepted path
is not `/allowed` itself and not under `/allowed/`, so the claimed
separator-boundary containment is violated by the code. -/
theorem C2_lexical_prefix_escape :
    validatePathModel
      { cwd := "/".data, home := "/root".data,
        lstat := fun p => if p = "/allowed-2/file.txt".data then some false else none,
        realpath := fun _ => none }
      "/".data "/allowed-2/file.txt".data ["/allowed".data] =
      .ok "/allowed-2/file.txt".data ∧
    ("/allowed/".data).isPrefixOf "/allowed-2/file.txt".data = false ∧
    "/allowed-2/file.txt".data ≠ "/allowed".data := by
  decide

/-- Counterexample to claim C5 as stated: for the base `/etc`, the
request `../../etc/passwd` resolves back inside the base, the string
gate passes, and with `/etc/passwd` existing as a regular file (no
symlink involved — `lstat` reports a symlink nowhere) the call
succeeds instead of failing with `AccessDenied`. -/
theorem C5_counterexample :
    validatePathModel
      { cwd := "/".data, home := "/root".data,
        lstat := fun p => if p = "/etc/passwd".data then some false else none,
        realpath := fun _ => none }
      "/etc".data "../../etc/passwd".data ["/etc".data] = .ok "/etc/passwd".data := by
  decide

/-- Claim C5 (amended): `validatePath(base, "../../etc/passwd",
[base])` fails with `AccessDenied` — regardless of the filesystem, so
in particular regardless of symlinks — for every base whose normalized
resolution is not a string prefix of the resolved request; bases that
are such prefixes (`/`, `/etc`, `/etc/passwd`, ...) escape the
check. -/
theorem C5_parent_traversal_denied (fs : FsView) (base : Str)
    (h : (normalizePath (resolveOne fs.cwd (expandHome fs.home base))).isPrefixOf
        (normalizePath (resolvedRequested fs.cwd (expandHome fs.home base)
          "../../etc/passwd".data)) = false) :
    validatePathModel fs base "../../etc/passwd".data [base] = .error .accessDenied := by
  simp only [validatePathModel,
    expandHome_of_head fs.home (p := "../../etc/passwd".data) (by decide),
    List.map_cons, List.map_nil, List.any_cons, List.any_nil, Bool.or_false, h]
  simp

/-- Witness for C5 at a concrete input: from the base
`/home/user/project`, the traversal request is denied whatever the
filesystem contains. -/
theorem C5_parent_traversal_denied_witness :
    validatePathModel
      { cwd := "/".data, home := "/root".data,
        lstat := fun _ => none, realpath := fun _ => none }
      "/home/user/project".data "../../etc/passwd".data ["/home/user/project".data] =
      .error .accessDenied :=
  C5_parent_traversal_denied _ _ (by decide)

/-- Claim C9: with an empty allow-list, `validatePath` fails with
`AccessDenied` for every base directory, every requested path and
every filesystem — the sandbox is fail-closed. -/
theorem C9_empty_allow_list_fail_closed (fs : FsView) (parentDir requestedPath : Str) :
    validatePathModel fs parentDir requestedPath [] = .error .accessDenied := by
  simp [validatePathModel]

/-- Claim C10: in the whitespace-tolerant replacement branch, a
replacement line after the first whose own leading whitespace and the
corresponding anchor line's leading whitespace are both non-empty is
emitted as the matched window's first-line indentation, then
`max(0, |replacement indent| - |anchor indent|)` spaces, then the
de-indented replacement line — the indentation delta is clamped at
zero, so such lines are never indented less than the window's first
line. -/
theorem C10_relative_indent_clamped (originalIndent : Str) (oldLines newLines : List Str)
    (j : Nat) (line anchor : Str)
    (hline : newLines[j]? = some line) (hanchor : oldLines[j]? = some anchor)
    (hj : j ≠ 0) (hold : indentOf anchor ≠ []) (hnew : indentOf line ≠ []) :
    (mapWithIndex (replacementLine originalIndent oldLines) newLines)[j]? =
      some (originalIndent ++
        List.replicate (max 0 ((indentOf line).length - (indentOf anchor).length : Int)).toNat
          ' ' ++ jsTrimStart line) := by
  unfold mapWithIndex
  rw [mapWithIndexFrom_getElem?, hline]
  simp only [Option.map_some', Nat.zero_add]
  unfold replacementLine
  rw [if_neg hj, hanchor]
  simp only [Option.getD_some]
  rw [if_pos ⟨hold, hnew⟩, int_clamp_toNat]

/-- Witness for C10 at a concrete input: anchor line `  b` (two-space
indent), replacement line with six spaces of indent, window first-line
indent of four spaces — the emitted line is the four spaces plus the
clamped delta of four more spaces, then `y`. -/
theorem C10_relative_indent_clamped_witness :
    (mapWithIndex (replacementLine "    ".data ["a".data, "  b".data])
        ["x".data, "      y".data])[1]? = some "        y".data := by
  have h := C10_relative_indent_clamped "    ".data ["a".data, "  b".data]
    ["x".data, "      y".data] 1 "      y".data "  b".data (by decide) (by decide)
    (by decide) (by decide) (by decide)
  rw [h]
  decide

end AiFileEdit
